import Mathlib

/-!
Shallow embedding of the rich-text rendering engine in
`image_generator.py` (functions `_parse_rich_text`, `_draw_glyph`,
`draw_text`), together with proofs of the specification claims.

Strings are modelled as `List Char`; Python floats are modelled as exact
rationals `ℚ`; Python machine integers are unbounded, matching Python's
`int`.  The FreeType face object is modelled as a structure of abstract
metric functions (it is an external collaborator of the engine).
-/

namespace FreeCmd

/-- Python `x >> 6` on an int: arithmetic shift, i.e. floor division by 64. -/
def sh6 (x : ℤ) : ℤ := Int.ediv x 64

/-- Python `int(q)` applied to an exact value: truncation toward zero. -/
def pyInt (q : ℚ) : ℤ := if 0 ≤ q then ⌊q⌋ else ⌈q⌉

/-- Python `round(q)` on an exact value: nearest integer, ties to even
(banker's rounding). -/
def pyRound (q : ℚ) : ℤ :=
  let fl := ⌊q⌋
  let frac := q - (fl : ℚ)
  if frac < 1/2 then fl
  else if 1/2 < frac then fl + 1
  else if fl % 2 = 0 then fl else fl + 1

/-- A resolved text style: the three keys of the parser's style dicts
(`color` hex string, `font_size` int, `spacing` float multiplier). -/
structure Style where
  color : List Char
  font_size : ℤ
  spacing : ℚ
deriving DecidableEq

instance : Inhabited Style := ⟨⟨[], 0, 0⟩⟩

/-- A parsed segment: literal text plus the style active when it was
emitted (`_parse_rich_text` output items). -/
structure Segment where
  text : List Char
  style : Style
deriving DecidableEq

/-- Parser state while folding over the split parts: the style stack
(top at the head; the Python list keeps the top at the end) and the
accumulated segments. -/
structure PState where
  stack : List Style
  segs : List Segment
deriving DecidableEq

/-- Digit-string value, `foldl (fun a c => a * 10 + digit c) 0`. -/
def natDigitsVal (l : List Char) : ℕ :=
  l.foldl (fun a c => a * 10 + (c.toNat - 48)) 0

/-- All characters are decimal digits. -/
def allDigits (l : List Char) : Bool := l.all (fun c => c.isDigit)

/-- Python `int(s)` on the tag value, modelling the common cases: an
optional sign followed by one or more decimal digits.  (The builtin also
strips whitespace and allows underscores; no claim depends on those.) -/
def pyIntParse (l : List Char) : Option ℤ :=
  match l with
  | '+' :: r => if !r.isEmpty && allDigits r then some ((natDigitsVal r : ℤ)) else none
  | '-' :: r => if !r.isEmpty && allDigits r then some (-(natDigitsVal r : ℤ)) else none
  | _ => if !l.isEmpty && allDigits l then some ((natDigitsVal l : ℤ)) else none

/-- Decimal core of Python `float(s)`: digits with an optional dot,
at least one digit overall. -/
def pyFloatCore (l : List Char) : Option ℚ :=
  let ip := l.takeWhile (fun c => c ≠ '.')
  if ip.length = l.length then
    if !l.isEmpty && allDigits l then some ((natDigitsVal l : ℚ)) else none
  else
    let fp := l.drop (ip.length + 1)
    if (!ip.isEmpty || !fp.isEmpty) && allDigits ip && allDigits fp then
      some ((natDigitsVal ip : ℚ) + (natDigitsVal fp : ℚ) / ((10 : ℚ) ^ fp.length))
    else none

/-- Python `float(s)` on the tag value, modelling the common decimal
cases (no exponents, infinities or nan; no claim depends on those). -/
def pyFloatParse (l : List Char) : Option ℚ :=
  match l with
  | '+' :: r => pyFloatCore r
  | '-' :: r => (pyFloatCore r).map (fun q => -q)
  | _ => pyFloatCore l

/-- Python `s.split('=', 1)` when it succeeds: text before the first
`'='` and text after it; `none` when there is no `'='` (in the source
the two-element unpacking then raises `ValueError`). -/
def splitEq (l : List Char) : Option (List Char × List Char) :=
  let pre := l.takeWhile (fun c => c ≠ '=')
  if pre.length = l.length then none
  else some (pre, l.drop (pre.length + 1))

/-- `part.startswith('[') and part.endswith(']')`. -/
def isTag (p : List Char) : Bool :=
  (p.head? == some '[') && (p.getLast? == some ']')

/-- Try to match the `/` of a closing tag: returns the consumed prefix
and the remainder (regex `/?`). -/
def matchSlash (l : List Char) : List Char × List Char :=
  match l with
  | '/' :: r => (['/'], r)
  | _ => ([], l)

/-- Try to match one of the keywords `color`, `size`, `spacing`
(regex alternation `(?:color|size|spacing)`). -/
def matchKeyword (l : List Char) : Option (List Char × List Char) :=
  if ("color".toList).isPrefixOf l then some ("color".toList, l.drop 5)
  else if ("size".toList).isPrefixOf l then some ("size".toList, l.drop 4)
  else if ("spacing".toList).isPrefixOf l then some ("spacing".toList, l.drop 7)
  else none

/-- Try to match the tag pattern `\[/?(?:color|size|spacing)[^\x5d]*\]`
at the start of `l`; on success returns the matched tag text and the
remaining input.  `[^\x5d]*` is greedy but must be followed by `]`, so a
match ends at the first `]` after the keyword. -/
def matchTag (l : List Char) : Option (List Char × List Char) :=
  match l with
  | [] => none
  | c :: r0 =>
    if c = '[' then
      match matchKeyword (matchSlash r0).2 with
      | none => none
      | some kwr =>
        let body := kwr.2.takeWhile (fun ch => ch ≠ ']')
        let rem := kwr.2.drop body.length
        if rem.head? == some ']' then
          some ('[' :: ((matchSlash r0).1 ++ kwr.1 ++ body ++ [']']), rem.tail)
        else none
    else none

/-- Scan for the leftmost tag match, as `re.split` with one capture
group does: emit the literal text before the match, the match itself,
and continue after it.  `fuel` bounds the recursion; `tokenize` supplies
`l.length + 1`, which is always sufficient because every step consumes
at least one character. -/
def tokenizeAux : ℕ → List Char → List Char → List (List Char)
  | _, acc, [] => [acc.reverse]
  | 0, acc, l => [acc.reverse ++ l]
  | fuel + 1, acc, c :: rest =>
    match matchTag (c :: rest) with
    | some ta => acc.reverse :: ta.1 :: tokenizeAux fuel [] ta.2
    | none => tokenizeAux fuel (c :: acc) rest

/-- `re.split(r'(\[/?(?:color|size|spacing)[^\x5d]*\])', text)`:
alternating literal and tag parts, empty literals included. -/
def tokenize (l : List Char) : List (List Char) :=
  tokenizeAux (l.length + 1) [] l

/-- The `try` block of the opening-tag branch applied to
`new_style = top.copy()`: `some` of the pushed style when no
`ValueError` is raised, `none` when `int()`/`float()` fails.  A tag type
other than the three known ones changes nothing but still reaches the
final `append`, so it yields `some top`. -/
def openAction (top : Style) (ty v : List Char) : Option Style :=
  if ty = "color".toList then some { top with color := v }
  else if ty = "size".toList then (pyIntParse v).map (fun n => { top with font_size := n })
  else if ty = "spacing".toList then (pyFloatParse v).map (fun q => { top with spacing := q })
  else some top

/-- Whether the opening-tag `try` block succeeds; independent of the
style it is applied to. -/
def openOk (ty v : List Char) : Bool :=
  if ty = "color".toList then true
  else if ty = "size".toList then (pyIntParse v).isSome
  else if ty = "spacing".toList then (pyFloatParse v).isSome
  else true

lemma openOk_eq_isSome (top : Style) (ty v : List Char) :
    openOk ty v = (openAction top ty v).isSome := by
  unfold openOk openAction
  split_ifs <;> simp

/-- One iteration of the part loop of `_parse_rich_text`: skip empty
parts; closing tags pop (guarded); opening tags push a modified copy of
the top, or degrade to a literal segment on a `ValueError`; everything
else is a literal segment with the current top style. -/
def processPart (s : PState) (p : List Char) : PState :=
  if p.isEmpty then s
  else if isTag p then
    if ((p.drop 1).dropLast).head? == some '/' then
      { s with stack := if 1 < s.stack.length then s.stack.tail else s.stack }
    else
      match splitEq ((p.drop 1).dropLast) with
      | none => { s with segs := s.segs ++ [⟨p, s.stack.headI⟩] }
      | some tv =>
        match openAction s.stack.headI tv.1 tv.2 with
        | some newSty => { s with stack := newSty :: s.stack }
        | none => { s with segs := s.segs ++ [⟨p, s.stack.headI⟩] }
  else
    { s with segs := s.segs ++ [⟨p, s.stack.headI⟩] }

/-- `_parse_rich_text(text, default_options)`: fold the part loop over
the split parts, starting from a stack holding a copy of the default
style, and return the segments. -/
def parseRichText (t : List Char) (d : Style) : List Segment :=
  (List.foldl processPart ⟨[d], []⟩ (tokenize t)).segs

/-- Classification of a part, mirroring the branch structure of
`processPart`: which branch the part loop takes. -/
inductive PartKind
  | empty
  | literal
  | closing
  | pushOpen
  | malformed
deriving DecidableEq

/-- The branch `processPart` takes on a part. -/
def partKind (p : List Char) : PartKind :=
  if p.isEmpty then .empty
  else if isTag p then
    if ((p.drop 1).dropLast).head? == some '/' then .closing
    else
      match splitEq ((p.drop 1).dropLast) with
      | none => .malformed
      | some tv => if openOk tv.1 tv.2 then .pushOpen else .malformed
  else .literal

/-- A BGR pixel: three 8-bit channels (values kept in `ℕ`; writes go
through an explicit `% 256`, the `astype(np.uint8)` wrap). -/
def Pixel : Type := ℕ × ℕ × ℕ

instance : DecidableEq Pixel := by unfold Pixel; infer_instance

/-- A FreeType glyph coverage bitmap: `width`, `rows`, and the buffer
reshaped to `(rows, width)` indexed as `buffer row col`. -/
structure Glyph where
  width : ℕ
  rows : ℕ
  buffer : ℤ → ℤ → ℕ

/-- The target image: a `h × w` 3-channel buffer.  `data` is total over
`ℤ × ℤ` so that "unchanged outside the written region" is directly
expressible. -/
structure Image where
  h : ℕ
  w : ℕ
  data : ℤ → ℤ → Pixel

/-- `max(0, -v)`: how much of the glyph sticks out past the low edge
(`x_start_clip` / `y_start_clip` in `_draw_glyph`). -/
def startClip (v : ℤ) : ℤ := max 0 (-v)

/-- `max(0, v + len - img_len)`: how much sticks out past the high edge
(`x_end_clip` / `y_end_clip`). -/
def endClip (v : ℤ) (len imgLen : ℕ) : ℤ := max 0 (v + (len : ℤ) - (imgLen : ℤ))

/-- `len - start_clip - end_clip`: the surviving extent
(`clipped_w` / `clipped_h`). -/
def clippedLen (v : ℤ) (len imgLen : ℕ) : ℤ :=
  (len : ℤ) - startClip v - endClip v len imgLen

/-- Membership of image coordinates `(r, c)` in the written rectangle
`img[y+y_start_clip : .. + clipped_h, x+x_start_clip : .. + clipped_w]`. -/
def inRegion (x y : ℤ) (g : Glyph) (img : Image) (r c : ℤ) : Prop :=
  y + startClip y ≤ r ∧ r < y + startClip y + clippedLen y g.rows img.h ∧
  x + startClip x ≤ c ∧ c < x + startClip x + clippedLen x g.width img.w

instance (x y : ℤ) (g : Glyph) (img : Image) (r c : ℤ) :
    Decidable (inRegion x y g img r c) := by
  unfold inRegion; infer_instance

/-- One channel of the source-over blend:
`(1 - alpha) * pixel + alpha * color` with `alpha = cov / 255`, written
back through `astype(np.uint8)` (truncate toward zero, wrap mod 256). -/
def blendChan (cov pix col : ℕ) : ℕ :=
  (Int.toNat (pyInt ((1 - (cov : ℚ) / 255) * (pix : ℚ) + ((cov : ℚ) / 255) * (col : ℚ)))) % 256

/-- The per-pixel blend, channel by channel. -/
def blendPix (cov : ℕ) (p col : Pixel) : Pixel :=
  (blendChan cov p.1 col.1, blendChan cov p.2.1 col.2.1, blendChan cov p.2.2 col.2.2)

/-- `_draw_glyph(img, glyph_bitmap, x, y, color_bgr)`: early-out on an
empty bitmap, four-sided clip, early-out on an empty clipped rectangle,
then blend the surviving rectangle in place.  Inside the rectangle the
glyph byte used at image coordinates `(r, c)` is `buffer (r-y) (c-x)`,
matching the `[y_start_clip : ..][x_start_clip : ..]` slice of the
reshaped buffer. -/
def drawGlyph (img : Image) (g : Glyph) (x y : ℤ) (col : Pixel) : Image :=
  if g.width = 0 ∨ g.rows = 0 then img
  else if clippedLen x g.width img.w ≤ 0 ∨ clippedLen y g.rows img.h ≤ 0 then img
  else
    { h := img.h, w := img.w,
      data := fun r c =>
        if inRegion x y g img r c then
          blendPix (g.buffer (r - y) (c - x)) (img.data r c) col
        else img.data r c }

/-- Value of one hex digit, with `0` for a non-hex character (the Python
`int(..., 16)` instead raises and aborts the whole render upstream; no
claim depends on malformed colors). -/
def hexDigitVal (c : Char) : ℕ :=
  if c.isDigit then c.toNat - 48
  else if 'a' ≤ c ∧ c ≤ 'f' then c.toNat - 87
  else if 'A' ≤ c ∧ c ≤ 'F' then c.toNat - 55
  else 0

/-- `int(hex_color[i:i+2], 16)` with out-of-range positions read as `'0'`. -/
def hexByte (l : List Char) (i : ℕ) : ℕ :=
  hexDigitVal (l.getD i '0') * 16 + hexDigitVal (l.getD (i + 1) '0')

/-- `hex_to_bgr(hex_color)`: strip leading `#`, then read the byte pairs
at offsets 4, 2, 0 (BGR order). -/
def hexToBgr (l : List Char) : Pixel :=
  let s := l.dropWhile (fun c => c = '#')
  (hexByte s 4, hexByte s 2, hexByte s 0)

/-- The FreeType face, as the abstract collaborator contract used by
`draw_text`: raw 26.6 metrics per pixel size (the source applies `>> 6`
itself), kerning versus an optional previous character (`previous_char`
starts as the int `0`, modelled as `none`), bearings and the rendered
coverage bitmap. -/
structure Face where
  ascenderRaw : ℤ → ℤ
  heightRaw : ℤ → ℤ
  advanceRaw : ℤ → Char → ℤ
  kernRaw : ℤ → Option Char → Char → ℤ
  bitmapLeft : ℤ → Char → ℤ
  bitmapTop : ℤ → Char → ℤ
  bitmap : ℤ → Char → Glyph

/-- Pen state of the layout loop: position, kerning context and the
image being mutated. -/
structure RState where
  x : ℤ
  y : ℤ
  prev : Option Char
  img : Image

/-- Python truthiness of `max_width` in `if max_width and ...`:
`None` and `0` are falsy. -/
def mwTruthy : Option ℤ → Bool
  | none => false
  | some w => w != 0

/-- `line_gap = int((face.size.height >> 6) * current_spacing)`. -/
def lineGapFor (f : Face) (st : Style) : ℤ :=
  pyInt ((sh6 (f.heightRaw st.font_size) : ℚ) * st.spacing)

/-- `ascender = face.size.ascender >> 6`. -/
def ascFor (f : Face) (st : Style) : ℤ := sh6 (f.ascenderRaw st.font_size)

/-- One iteration of the character loop of `draw_text`.  A newline
resets the pen and draws nothing.  Otherwise the wrap test
`max_width and (pen_x + kerning + advance) > (x_start + max_width) and
pen_x > x_start` either wraps (pen to line start, `pen_y += line_gap`,
kerning zeroed) or not; the two straight-line outcomes of the source's
sequential updates are written out per branch. -/
def charStep (f : Face) (sz asc lg : ℤ) (col : Pixel) (xstart : ℤ)
    (mw : Option ℤ) (s : RState) (c : Char) : RState :=
  if c = '\n' then ⟨xstart, s.y + lg, none, s.img⟩
  else
    let kern0 := sh6 (f.kernRaw sz s.prev c)
    let adv := sh6 (f.advanceRaw sz c)
    if mwTruthy mw = true ∧ s.x + kern0 + adv > xstart + mw.getD 0 ∧ s.x > xstart then
      ⟨xstart + adv, s.y + lg, some c,
        drawGlyph s.img (f.bitmap sz c) (xstart + f.bitmapLeft sz c)
          (s.y + lg + asc - f.bitmapTop sz c) col⟩
    else
      ⟨s.x + kern0 + adv, s.y, some c,
        drawGlyph s.img (f.bitmap sz c) (s.x + kern0 + f.bitmapLeft sz c)
          (s.y + asc - f.bitmapTop sz c) col⟩

/-- One iteration of the segment loop of `draw_text`: set the pixel
size, recompute ascender and line gap for the segment's style, resolve
the color, then run the character loop over the segment text. -/
def segStep (f : Face) (xstart : ℤ) (mw : Option ℤ) (s : RState) (seg : Segment) : RState :=
  List.foldl
    (charStep f seg.style.font_size (ascFor f seg.style) (lineGapFor f seg.style)
      (hexToBgr seg.style.color) xstart mw)
    s seg.text

/-- `text_to_draw.replace('\x5cn', '\n')`: left-to-right, non-overlapping. -/
def normalizeNewlines : List Char → List Char
  | [] => []
  | '\\' :: 'n' :: r => '\n' :: normalizeNewlines r
  | c :: r => c :: normalizeNewlines r

/-- `draw_text(img, text, start_pos, face, base_options, max_width, ...)`:
normalize escaped newlines, parse into segments against the default
style, then fold the segment loop from the starting pen position and
return the mutated image. -/
def drawText (img : Image) (text : List Char) (startPos : ℤ × ℤ) (f : Face)
    (base : Style) (mw : Option ℤ) : Image :=
  (List.foldl (segStep f startPos.1 mw)
    ⟨startPos.1, startPos.2, none, img⟩
    (parseRichText (normalizeNewlines text) base)).img

/-! ## Clip arithmetic lemmas -/

lemma startClip_nonneg (v : ℤ) : 0 ≤ startClip v := le_max_left 0 (-v)

lemma neg_le_startClip (v : ℤ) : -v ≤ startClip v := le_max_right 0 (-v)

lemma endClip_nonneg (v : ℤ) (len imgLen : ℕ) : 0 ≤ endClip v len imgLen :=
  le_max_left 0 _

lemma le_endClip (v : ℤ) (len imgLen : ℕ) :
    v + (len : ℤ) - (imgLen : ℤ) ≤ endClip v len imgLen :=
  le_max_right 0 _

/-- Any coordinate in the written rectangle is inside the image and its
glyph-buffer index is inside the bitmap. -/
lemma inRegion_bounds (x y : ℤ) (g : Glyph) (img : Image) (r c : ℤ)
    (h : inRegion x y g img r c) :
    0 ≤ r ∧ r < (img.h : ℤ) ∧ 0 ≤ c ∧ c < (img.w : ℤ) ∧
    0 ≤ r - y ∧ r - y < (g.rows : ℤ) ∧ 0 ≤ c - x ∧ c - x < (g.width : ℤ) := by
  obtain ⟨h1, h2, h3, h4⟩ := h
  have e1 := startClip_nonneg y
  have e2 := neg_le_startClip y
  have e3 := endClip_nonneg y g.rows img.h
  have e4 := le_endClip y g.rows img.h
  have e5 := startClip_nonneg x
  have e6 := neg_le_startClip x
  have e7 := endClip_nonneg x g.width img.w
  have e8 := le_endClip x g.width img.w
  unfold clippedLen at h2 h4
  omega

/-- Claim C1 — for every image, glyph, color and integer position, the
compositor `_draw_glyph` only changes pixels inside the image buffer,
the glyph byte it uses for a changed pixel lies inside the glyph buffer,
and whenever the clipped rectangle has zero or negative width or height
the image is byte-for-byte unchanged. -/
theorem drawGlyph_stays_in_bounds (img : Image) (g : Glyph) (x y : ℤ) (col : Pixel) :
    (∀ r c : ℤ, (drawGlyph img g x y col).data r c ≠ img.data r c →
      0 ≤ r ∧ r < (img.h : ℤ) ∧ 0 ≤ c ∧ c < (img.w : ℤ) ∧
      0 ≤ r - y ∧ r - y < (g.rows : ℤ) ∧ 0 ≤ c - x ∧ c - x < (g.width : ℤ))
    ∧ (clippedLen x g.width img.w ≤ 0 ∨ clippedLen y g.rows img.h ≤ 0 →
      drawGlyph img g x y col = img) := by
  constructor
  · intro r c hne
    by_cases h0 : g.width = 0 ∨ g.rows = 0
    · rw [drawGlyph, if_pos h0] at hne; exact absurd rfl hne
    by_cases h1 : clippedLen x g.width img.w ≤ 0 ∨ clippedLen y g.rows img.h ≤ 0
    · rw [drawGlyph, if_neg h0, if_pos h1] at hne; exact absurd rfl hne
    rw [drawGlyph, if_neg h0, if_neg h1] at hne
    by_cases hr : inRegion x y g img r c
    · exact inRegion_bounds x y g img r c hr
    · simp only [if_neg hr] at hne; exact absurd rfl hne
  · intro h1
    by_cases h0 : g.width = 0 ∨ g.rows = 0
    · rw [drawGlyph, if_pos h0]
    · rw [drawGlyph, if_neg h0, if_pos h1]

/-- A 2×2 image whose pixels are all `(10, 20, 30)`. -/
def imgA : Image := ⟨2, 2, fun _ _ => (10, 20, 30)⟩

/-- A 1×1 glyph with full coverage. -/
def glA : Glyph := ⟨1, 1, fun _ _ => 255⟩

/-! ## Blend boundary lemmas -/

lemma pyInt_natCast (n : ℕ) : pyInt ((n : ℕ) : ℚ) = (n : ℤ) := by
  unfold pyInt
  rw [if_pos (by exact_mod_cast Nat.cast_nonneg n), Int.floor_natCast]

lemma blendChan_zero (p c : ℕ) (hp : p ≤ 255) : blendChan 0 p c = p := by
  unfold blendChan
  have h : ((1 : ℚ) - (0 : ℕ) / 255) * (p : ℚ) + ((0 : ℕ) : ℚ) / 255 * (c : ℚ) = ((p : ℕ) : ℚ) := by
    push_cast; ring
  rw [h, pyInt_natCast]
  simp [Nat.mod_eq_of_lt (by omega : p < 256)]

lemma blendChan_full (p c : ℕ) (hc : c ≤ 255) : blendChan 255 p c = c := by
  unfold blendChan
  have h : ((1 : ℚ) - (255 : ℕ) / 255) * (p : ℚ) + ((255 : ℕ) : ℚ) / 255 * (c : ℚ) = ((c : ℕ) : ℚ) := by
    push_cast; ring
  rw [h, pyInt_natCast]
  simp [Nat.mod_eq_of_lt (by omega : c < 256)]

/-- All three channels are 8-bit values. -/
def pixLe255 (p : Pixel) : Prop := p.1 ≤ 255 ∧ p.2.1 ≤ 255 ∧ p.2.2 ≤ 255

instance (p : Pixel) : Decidable (pixLe255 p) := by unfold pixLe255; infer_instance

lemma blendPix_zero (p col : Pixel) (hp : pixLe255 p) : blendPix 0 p col = p := by
  obtain ⟨h1, h2, h3⟩ := hp
  unfold blendPix
  rw [blendChan_zero _ _ h1, blendChan_zero _ _ h2, blendChan_zero _ _ h3]
  rfl

lemma blendPix_full (p col : Pixel) (hc : pixLe255 col) : blendPix 255 p col = col := by
  obtain ⟨h1, h2, h3⟩ := hc
  unfold blendPix
  rw [blendChan_full _ _ h1, blendChan_full _ _ h2, blendChan_full _ _ h3]
  rfl

/-- On the concrete 2×2 image, the full-coverage 1×1 glyph at the origin
really changes pixel `(0, 0)`. -/
lemma imgA_pixel_changes :
    (drawGlyph imgA glA 0 0 (200, 0, 0)).data 0 0 ≠ imgA.data 0 0 := by
  have hstep : (drawGlyph imgA glA 0 0 (200, 0, 0)).data 0 0 = (200, 0, 0) := by
    rw [drawGlyph, if_neg (by decide), if_neg (by decide)]
    simp only [if_pos (by decide : inRegion 0 0 glA imgA 0 0)]
    exact blendPix_full _ _ (by decide)
  rw [hstep]
  decide

/-- Witness for C1: at the origin with full coverage, pixel `(0,0)`
actually changes and the theorem places it inside both buffers; and a
glyph placed at `x = -5` is a byte-for-byte no-op. -/
theorem drawGlyph_stays_in_bounds_witness :
    (0 ≤ (0 : ℤ) ∧ (0 : ℤ) < (imgA.h : ℤ) ∧ 0 ≤ (0 : ℤ) ∧ (0 : ℤ) < (imgA.w : ℤ) ∧
      0 ≤ (0 : ℤ) - 0 ∧ (0 : ℤ) - 0 < (glA.rows : ℤ) ∧
      0 ≤ (0 : ℤ) - 0 ∧ (0 : ℤ) - 0 < (glA.width : ℤ))
    ∧ drawGlyph imgA glA (-5) 0 (200, 0, 0) = imgA :=
  ⟨(drawGlyph_stays_in_bounds imgA glA 0 0 (200, 0, 0)).1 0 0 imgA_pixel_changes,
   (drawGlyph_stays_in_bounds imgA glA (-5) 0 (200, 0, 0)).2 (Or.inl (by decide))⟩

/-- Claim C7 — for every pixel of the surviving clipped rectangle, the
source-over blend is exact at the boundary coverage values: a coverage
byte of 0 leaves the pixel unchanged and a coverage byte of 255 writes
exactly the glyph color. -/
theorem blend_boundary_values (img : Image) (g : Glyph) (x y : ℤ) (col : Pixel)
    (r c : ℤ)
    (hcw : 0 < clippedLen x g.width img.w) (hch : 0 < clippedLen y g.rows img.h)
    (hreg : inRegion x y g img r c)
    (hpix : pixLe255 (img.data r c)) (hcol : pixLe255 col) :
    (g.buffer (r - y) (c - x) = 0 → (drawGlyph img g x y col).data r c = img.data r c)
    ∧ (g.buffer (r - y) (c - x) = 255 → (drawGlyph img g x y col).data r c = col) := by
  have e5 := startClip_nonneg x
  have e7 := endClip_nonneg x g.width img.w
  have e1 := startClip_nonneg y
  have e3 := endClip_nonneg y g.rows img.h
  have h0 : ¬(g.width = 0 ∨ g.rows = 0) := by
    unfold clippedLen at hcw hch
    rintro (h | h) <;> omega
  have h1 : ¬(clippedLen x g.width img.w ≤ 0 ∨ clippedLen y g.rows img.h ≤ 0) := by
    rintro (h | h) <;> omega
  rw [drawGlyph, if_neg h0, if_neg h1]
  constructor
  · intro hb
    simp only [if_pos hreg, hb]
    exact blendPix_zero _ _ hpix
  · intro hb
    simp only [if_pos hreg, hb]
    exact blendPix_full _ _ hcol

/-- A 1-row, 2-column glyph: zero coverage in column 0, full coverage in
column 1. -/
def glB : Glyph := ⟨2, 1, fun _ c => if c = 0 then 0 else 255⟩

/-- Witness for C7: on the 2×2 image, the zero-coverage pixel keeps its
value and the full-coverage pixel becomes exactly the glyph color. -/
theorem blend_boundary_values_witness :
    (drawGlyph imgA glB 0 0 (200, 100, 50)).data 0 0 = imgA.data 0 0
    ∧ (drawGlyph imgA glB 0 0 (200, 100, 50)).data 0 1 = (200, 100, 50) :=
  ⟨(blend_boundary_values imgA glB 0 0 (200, 100, 50) 0 0 (by decide) (by decide)
      (by decide) (by decide) (by decide)).1 (by decide),
   (blend_boundary_values imgA glB 0 0 (200, 100, 50) 0 1 (by decide) (by decide)
      (by decide) (by decide) (by decide)).2 (by decide)⟩

/-! ## Layout engine: wrapping, newlines, line gap -/

/-- Claim C5 — with `max_width = W > 0`, the character step wraps
exactly when `pen.x + kerning + advance > start_x + W` and
`pen.x > start_x` (the source's "not already at the line start" test);
on a wrap the pen is reset to `start_x`, `pen.y` advances by the line
gap, the kerning is zeroed, and the glyph is drawn at
`start_x + bitmap_left`; otherwise the glyph is drawn at
`pen.x + kerning + bitmap_left` with `pen.y` unchanged. -/
theorem wrap_exact_condition (f : Face) (sz asc lg : ℤ) (col : Pixel)
    (xstart W : ℤ) (s : RState) (c : Char) (hc : c ≠ '\n') (hW : 0 < W) :
    (s.x + sh6 (f.kernRaw sz s.prev c) + sh6 (f.advanceRaw sz c) > xstart + W ∧ s.x > xstart →
      charStep f sz asc lg col xstart (some W) s c =
        ⟨xstart + sh6 (f.advanceRaw sz c), s.y + lg, some c,
          drawGlyph s.img (f.bitmap sz c) (xstart + f.bitmapLeft sz c)
            (s.y + lg + asc - f.bitmapTop sz c) col⟩)
    ∧ (¬(s.x + sh6 (f.kernRaw sz s.prev c) + sh6 (f.advanceRaw sz c) > xstart + W ∧ s.x > xstart) →
      charStep f sz asc lg col xstart (some W) s c =
        ⟨s.x + sh6 (f.kernRaw sz s.prev c) + sh6 (f.advanceRaw sz c), s.y, some c,
          drawGlyph s.img (f.bitmap sz c)
            (s.x + sh6 (f.kernRaw sz s.prev c) + f.bitmapLeft sz c)
            (s.y + asc - f.bitmapTop sz c) col⟩) := by
  have hm : mwTruthy (some W) = true := by
    simp only [mwTruthy, ne_eq, bne_iff_ne]
    omega
  constructor
  · intro h
    simp only [charStep, if_neg hc, Option.getD_some]
    rw [if_pos ⟨hm, h.1, h.2⟩]
  · intro h
    simp only [charStep, if_neg hc, Option.getD_some]
    rw [if_neg (fun hcond => h ⟨hcond.2.1, hcond.2.2⟩)]

/-- A stub face: constant metrics, advance 6 pixels (raw 26.6 value
384), no kerning, zero bearings, an empty bitmap. -/
def faceB : Face :=
  ⟨fun _ => 0, fun _ => 0, fun _ _ => 384, fun _ _ _ => 0,
   fun _ _ => 0, fun _ _ => 0, fun _ _ => ⟨0, 0, fun _ _ => 0⟩⟩

/-- Witness for C5, on the stub face with `W = 10`, advance 6: a pen at
`x = 8` overflows (`8 + 0 + 6 > 10`) and wraps; a pen at the line start
`x = 0` does not wrap. -/
theorem wrap_exact_condition_witness :
    charStep faceB 40 10 14 (0, 0, 0) 0 (some 10) ⟨8, 0, none, imgA⟩ 'a' =
      ⟨0 + sh6 (faceB.advanceRaw 40 'a'), (0 : ℤ) + 14, some 'a',
        drawGlyph imgA (faceB.bitmap 40 'a') (0 + faceB.bitmapLeft 40 'a')
          ((0 : ℤ) + 14 + 10 - faceB.bitmapTop 40 'a') (0, 0, 0)⟩
    ∧ charStep faceB 40 10 14 (0, 0, 0) 0 (some 10) ⟨0, 0, none, imgA⟩ 'a' =
      ⟨(0 : ℤ) + sh6 (faceB.kernRaw 40 none 'a') + sh6 (faceB.advanceRaw 40 'a'), (0 : ℤ), some 'a',
        drawGlyph imgA (faceB.bitmap 40 'a') ((0 : ℤ) + sh6 (faceB.kernRaw 40 none 'a') + faceB.bitmapLeft 40 'a')
          ((0 : ℤ) + 10 - faceB.bitmapTop 40 'a') (0, 0, 0)⟩ :=
  ⟨(wrap_exact_condition faceB 40 10 14 (0, 0, 0) 0 10 ⟨8, 0, none, imgA⟩ 'a'
      (by decide) (by decide)).1 (by decide),
   (wrap_exact_condition faceB 40 10 14 (0, 0, 0) 0 10 ⟨0, 0, none, imgA⟩ 'a'
      (by decide) (by decide)).2 (by decide)⟩

/-- Claim C8 — an explicit newline character resets `pen.x` to the
start x, advances `pen.y` by exactly the line gap of the active style,
clears the kerning context, and draws nothing; both at the character
step (with the line gap the segment loop computes for the style) and
through the segment loop itself. -/
theorem newline_resets_pen (f : Face) (sz asc : ℤ) (col : Pixel) (xstart : ℤ)
    (mw : Option ℤ) (st : Style) (s : RState) :
    charStep f sz asc (lineGapFor f st) col xstart mw s '\n'
      = ⟨xstart, s.y + lineGapFor f st, none, s.img⟩
    ∧ segStep f xstart mw s ⟨['\n'], st⟩
      = ⟨xstart, s.y + lineGapFor f st, none, s.img⟩ := by
  constructor
  · simp [charStep]
  · simp [segStep, charStep]

/-- Claim C4 (amended) — the line gap the segment loop computes and uses
for newlines equals `int(face_line_height * spacing)`: the product of
the shifted face height and the spacing multiplier truncated toward
zero, not rounded to nearest. -/
theorem line_gap_truncates (f : Face) (xstart : ℤ) (mw : Option ℤ)
    (s : RState) (st : Style) :
    (segStep f xstart mw s ⟨['\n'], st⟩).y
      = s.y + pyInt ((sh6 (f.heightRaw st.font_size) : ℚ) * st.spacing)
    ∧ lineGapFor f st = pyInt ((sh6 (f.heightRaw st.font_size) : ℚ) * st.spacing) := by
  constructor
  · simp [segStep, charStep, lineGapFor]
  · rfl

/-- A face whose raw height is 192, i.e. 3 pixels after the `>> 6`. -/
def faceC : Face :=
  ⟨fun _ => 0, fun _ => 192, fun _ _ => 0, fun _ _ _ => 0,
   fun _ _ => 0, fun _ _ => 0, fun _ _ => ⟨0, 0, fun _ _ => 0⟩⟩

/-- A style with spacing 2.5 (exactly representable as a float). -/
def styC : Style := ⟨"#000000".toList, 40, 5/2⟩

lemma styC_gap_arg : ((sh6 (faceC.heightRaw styC.font_size) : ℚ) * styC.spacing) = 15 / 2 := by
  show ((sh6 192 : ℚ) * (5 / 2)) = 15 / 2
  rw [show sh6 192 = 3 from by decide]
  norm_num

lemma floor_fifteen_halves : ⌊(15 / 2 : ℚ)⌋ = 7 := by
  rw [Int.floor_eq_iff]
  norm_num

/-- Counterexample to claim C4 as stated: with face line height 3 and
spacing 2.5, the code's line gap (used by the newline step) is
`int(7.5) = 7`, while the claimed `round(7.5)` is 8. -/
theorem line_gap_not_rounded_cex :
    (segStep faceC 0 none ⟨0, 0, none, imgA⟩ ⟨['\n'], styC⟩).y = 7
    ∧ pyRound ((sh6 (faceC.heightRaw styC.font_size) : ℚ) * styC.spacing) = 8 := by
  have hgap : lineGapFor faceC styC = 7 := by
    unfold lineGapFor
    rw [styC_gap_arg]
    unfold pyInt
    rw [if_pos (by norm_num), floor_fifteen_halves]
  constructor
  · simp [segStep, charStep, hgap]
  · rw [styC_gap_arg]
    unfold pyRound
    rw [floor_fifteen_halves]
    norm_num

/-! ## Parser branch lemmas -/

lemma processPart_empty (s : PState) (p : List Char) (h : partKind p = PartKind.empty) :
    processPart s p = s := by
  unfold partKind at h
  unfold processPart
  by_cases h1 : p.isEmpty
  · rw [if_pos h1]
  rw [if_neg h1] at h ⊢
  by_cases h2 : isTag p
  · rw [if_pos h2] at h ⊢
    by_cases h3 : (((p.drop 1).dropLast).head? == some '/') = true
    · rw [if_pos h3] at h; exact absurd h (by decide)
    rw [if_neg h3] at h ⊢
    rcases hsp : splitEq ((p.drop 1).dropLast) with _ | tv <;> simp only [hsp] at h
    · exact absurd h (by decide)
    · by_cases h4 : openOk tv.1 tv.2 = true
      · rw [if_pos h4] at h; exact absurd h (by decide)
      · rw [if_neg h4] at h; exact absurd h (by decide)
  · rw [if_neg h2] at h; exact absurd h (by decide)

lemma processPart_emit (s : PState) (p : List Char)
    (h : partKind p = PartKind.literal ∨ partKind p = PartKind.malformed) :
    processPart s p = { s with segs := s.segs ++ [⟨p, s.stack.headI⟩] } := by
  unfold partKind at h
  unfold processPart
  by_cases h1 : p.isEmpty
  · rw [if_pos h1] at h; rcases h with h | h <;> exact absurd h (by decide)
  rw [if_neg h1] at h ⊢
  by_cases h2 : isTag p
  · rw [if_pos h2] at h ⊢
    by_cases h3 : (((p.drop 1).dropLast).head? == some '/') = true
    · rw [if_pos h3] at h; rcases h with h | h <;> exact absurd h (by decide)
    rw [if_neg h3] at h ⊢
    rcases hsp : splitEq ((p.drop 1).dropLast) with _ | tv
    · simp [hsp]
    · simp only [hsp] at h ⊢
      by_cases h4 : openOk tv.1 tv.2 = true
      · rw [if_pos h4] at h; rcases h with h | h <;> exact absurd h (by decide)
      · rcases hoa : openAction s.stack.headI tv.1 tv.2 with _ | nst
        · simp [hoa]
        · exfalso
          rw [openOk_eq_isSome s.stack.headI, hoa] at h4
          simp at h4
  · rw [if_neg h2]

lemma processPart_closing (s : PState) (p : List Char) (h : partKind p = PartKind.closing) :
    processPart s p
      = { s with stack := if 1 < s.stack.length then s.stack.tail else s.stack } := by
  unfold partKind at h
  unfold processPart
  by_cases h1 : p.isEmpty
  · rw [if_pos h1] at h; exact absurd h (by decide)
  rw [if_neg h1] at h ⊢
  by_cases h2 : isTag p
  · rw [if_pos h2] at h ⊢
    by_cases h3 : (((p.drop 1).dropLast).head? == some '/') = true
    · rw [if_pos h3]
    rw [if_neg h3] at h
    rcases hsp : splitEq ((p.drop 1).dropLast) with _ | tv <;> simp only [hsp] at h
    · exact absurd h (by decide)
    · by_cases h4 : openOk tv.1 tv.2 = true
      · rw [if_pos h4] at h; exact absurd h (by decide)
      · rw [if_neg h4] at h; exact absurd h (by decide)
  · rw [if_neg h2] at h; exact absurd h (by decide)

lemma processPart_push (s : PState) (p : List Char) (h : partKind p = PartKind.pushOpen) :
    ∃ ty v nst, splitEq ((p.drop 1).dropLast) = some (ty, v)
      ∧ openAction s.stack.headI ty v = some nst
      ∧ processPart s p = { s with stack := nst :: s.stack } := by
  unfold partKind at h
  unfold processPart
  by_cases h1 : p.isEmpty
  · rw [if_pos h1] at h; exact absurd h (by decide)
  rw [if_neg h1] at h ⊢
  by_cases h2 : isTag p
  · rw [if_pos h2] at h ⊢
    by_cases h3 : (((p.drop 1).dropLast).head? == some '/') = true
    · rw [if_pos h3] at h; exact absurd h (by decide)
    rw [if_neg h3] at h ⊢
    rcases hsp : splitEq ((p.drop 1).dropLast) with _ | tv <;> simp only [hsp] at h ⊢
    · exact absurd h (by decide)
    · by_cases h4 : openOk tv.1 tv.2 = true
      · have h5 : (openAction s.stack.headI tv.1 tv.2).isSome = true := by
          rw [← openOk_eq_isSome]; exact h4
        rcases hoa : openAction s.stack.headI tv.1 tv.2 with _ | nst
        · rw [hoa] at h5; simp at h5
        · exact ⟨tv.1, tv.2, nst, rfl, hoa, by simp [hoa]⟩
      · rw [if_neg h4] at h; exact absurd h (by decide)
  · rw [if_neg h2] at h; exact absurd h (by decide)

/-! ## Stack and segment bookkeeping across the fold -/

/-- The effect of one part splits into a stack effect (depending only on
the stack) and appended segments. -/
lemma processPart_decomp (st : List Style) (segs : List Segment) (p : List Char) :
    processPart ⟨st, segs⟩ p
      = ⟨(processPart ⟨st, []⟩ p).stack, segs ++ (processPart ⟨st, []⟩ p).segs⟩ := by
  rcases hk : partKind p with _ | _ | _ | _ | _
  · rw [processPart_empty ⟨st, segs⟩ p hk, processPart_empty ⟨st, []⟩ p hk]
    simp
  · rw [processPart_emit ⟨st, segs⟩ p (Or.inl hk), processPart_emit ⟨st, []⟩ p (Or.inl hk)]
    simp
  · rw [processPart_closing ⟨st, segs⟩ p hk, processPart_closing ⟨st, []⟩ p hk]
    simp
  · obtain ⟨ty, v, nst, hsp, hoa, heq⟩ := processPart_push ⟨st, segs⟩ p hk
    obtain ⟨ty2, v2, nst2, hsp2, hoa2, heq2⟩ := processPart_push ⟨st, []⟩ p hk
    rw [hsp] at hsp2
    injection hsp2 with hpair
    obtain ⟨rfl, rfl⟩ : ty = ty2 ∧ v = v2 := by
      constructor
      · exact congrArg Prod.fst hpair
      · exact congrArg Prod.snd hpair
    rw [heq, heq2]
    have : nst = nst2 := by
      have := hoa.symm.trans hoa2
      injection this
    rw [this]
    simp
  · rw [processPart_emit ⟨st, segs⟩ p (Or.inr hk), processPart_emit ⟨st, []⟩ p (Or.inr hk)]
    simp

/-- Folding the part loop from any segment accumulator: the final stack
ignores the accumulator and the emitted segments are appended to it. -/
lemma foldl_decomp (ps : List (List Char)) : ∀ (st : List Style) (segs : List Segment),
    List.foldl processPart ⟨st, segs⟩ ps
      = ⟨(List.foldl processPart ⟨st, []⟩ ps).stack,
         segs ++ (List.foldl processPart ⟨st, []⟩ ps).segs⟩ := by
  induction ps with
  | nil => intro st segs; simp
  | cons p ps ih =>
    intro st segs
    simp only [List.foldl_cons]
    have hA : List.foldl processPart (processPart ⟨st, []⟩ p) ps
        = ⟨(List.foldl processPart ⟨(processPart ⟨st, []⟩ p).stack, []⟩ ps).stack,
           (processPart ⟨st, []⟩ p).segs
             ++ (List.foldl processPart ⟨(processPart ⟨st, []⟩ p).stack, []⟩ ps).segs⟩ :=
      ih (processPart ⟨st, []⟩ p).stack (processPart ⟨st, []⟩ p).segs
    rw [processPart_decomp st segs p,
        ih (processPart ⟨st, []⟩ p).stack (segs ++ (processPart ⟨st, []⟩ p).segs), hA]
    simp

/-- Popping a stack of more than one element keeps it nonempty and
preserves the bottom element. -/
lemma tail_invariant (l : List Style) (hl : 1 < l.length) :
    l.tail ≠ [] ∧ l.tail.getLast? = l.getLast? := by
  match l with
  | [] => simp at hl
  | [a] => simp at hl
  | a :: b :: t => exact ⟨by simp, (List.getLast?_cons_cons (a := a) (b := b)).symm⟩

/-- Pushing onto a nonempty stack preserves the bottom element. -/
lemma cons_getLast? (a : Style) (l : List Style) (h : l ≠ []) :
    (a :: l).getLast? = l.getLast? := by
  match l with
  | [] => exact absurd rfl h
  | b :: t => exact List.getLast?_cons_cons (a := a) (b := b)

/-- One part never empties a nonempty stack and never touches its
bottom element. -/
lemma processPart_stack_invariant (s : PState) (p : List Char) (h : s.stack ≠ []) :
    (processPart s p).stack ≠ []
    ∧ (processPart s p).stack.getLast? = s.stack.getLast? := by
  rcases hk : partKind p with _ | _ | _ | _ | _
  · rw [processPart_empty s p hk]; exact ⟨h, rfl⟩
  · rw [processPart_emit s p (Or.inl hk)]; exact ⟨h, rfl⟩
  · rw [processPart_closing s p hk]
    by_cases hl : 1 < s.stack.length
    · rw [if_pos hl]
      exact tail_invariant s.stack hl
    · rw [if_neg hl]
      exact ⟨h, rfl⟩
  · obtain ⟨ty, v, nst, _, _, heq⟩ := processPart_push s p hk
    rw [heq]
    exact ⟨by simp, cons_getLast? nst s.stack h⟩
  · rw [processPart_emit s p (Or.inr hk)]; exact ⟨h, rfl⟩

/-- Across the whole fold: the stack stays nonempty and its bottom
element is preserved. -/
lemma foldl_stack_invariant (ps : List (List Char)) : ∀ s : PState, s.stack ≠ [] →
    (List.foldl processPart s ps).stack ≠ []
    ∧ (List.foldl processPart s ps).stack.getLast? = s.stack.getLast? := by
  induction ps with
  | nil => intro s h; exact ⟨h, rfl⟩
  | cons p ps ih =>
    intro s h
    obtain ⟨h1, h2⟩ := processPart_stack_invariant s p h
    obtain ⟨h3, h4⟩ := ih (processPart s p) h1
    simp only [List.foldl_cons]
    exact ⟨h3, h4.trans h2⟩

/-- Well-formed nesting of the parts between two tags: parts that do not
touch the stack in any order, and properly matched push/pop pairs. -/
inductive Balanced : List (List Char) → Prop
  | nil : Balanced []
  | neutral (p : List Char) (ps : List (List Char)) :
      partKind p ≠ PartKind.closing → partKind p ≠ PartKind.pushOpen →
      Balanced ps → Balanced (p :: ps)
  | node (t : List Char) (inner : List (List Char)) (c : List Char) (ps : List (List Char)) :
      partKind t = PartKind.pushOpen → Balanced inner →
      partKind c = PartKind.closing → Balanced ps →
      Balanced (t :: (inner ++ c :: ps))

/-- Processing a balanced run of parts restores the stack exactly. -/
lemma balanced_stack {ps : List (List Char)} (hb : Balanced ps) :
    ∀ s : PState, s.stack ≠ [] → (List.foldl processPart s ps).stack = s.stack := by
  induction hb with
  | nil => intro s _; rfl
  | neutral p ps hnc hnp _ ih =>
    intro s h
    simp only [List.foldl_cons]
    have hstep : (processPart s p).stack = s.stack := by
      rcases hk : partKind p with _ | _ | _ | _ | _
      · rw [processPart_empty s p hk]
      · rw [processPart_emit s p (Or.inl hk)]
      · exact absurd hk hnc
      · exact absurd hk hnp
      · rw [processPart_emit s p (Or.inr hk)]
    have h2 : (processPart s p).stack ≠ [] := by rw [hstep]; exact h
    rw [ih (processPart s p) h2, hstep]
  | node t inner c ps hpt _ hcc _ ih_in ih_ps =>
    intro s h
    simp only [List.foldl_cons]
    obtain ⟨ty, v, nst, _, _, hpush⟩ := processPart_push s t hpt
    rw [hpush, List.foldl_append]
    have h1 : ({ s with stack := nst :: s.stack } : PState).stack ≠ [] := by simp
    have hin_eq : (List.foldl processPart { s with stack := nst :: s.stack } inner).stack
        = nst :: s.stack :=
      ih_in { s with stack := nst :: s.stack } h1
    simp only [List.foldl_cons]
    have hc_eq : (processPart (List.foldl processPart { s with stack := nst :: s.stack } inner) c).stack
        = s.stack := by
      rw [processPart_closing _ c hcc]
      simp only [hin_eq]
      have hlen : 0 < s.stack.length := List.length_pos.mpr h
      rw [if_pos (by simp only [List.length_cons]; omega)]
      rfl
    have h2 : (processPart (List.foldl processPart { s with stack := nst :: s.stack } inner) c).stack ≠ [] := by
      rw [hc_eq]; exact h
    rw [ih_ps _ h2, hc_eq]

/-- Claim C2 — the parser keeps one unified style stack: any closing tag
pops exactly one level when more than the base remains and is a no-op at
the base; a balanced run of tags restores the stack, so in particular
closing a tag restores the style active before the matching opening tag;
and from any nonempty stack the fold never underflows and preserves the
bottom (default) style. -/
theorem parse_stack_discipline :
    (∀ (s : PState) (p : List Char), partKind p = PartKind.closing →
      (processPart s p).stack = if 1 < s.stack.length then s.stack.tail else s.stack)
    ∧ (∀ (ps : List (List Char)) (s : PState), Balanced ps → s.stack ≠ [] →
      (List.foldl processPart s ps).stack = s.stack)
    ∧ (∀ (t : List Char) (inner : List (List Char)) (c : List Char) (s : PState),
      partKind t = PartKind.pushOpen → Balanced inner → partKind c = PartKind.closing →
      s.stack ≠ [] →
      (List.foldl processPart s (t :: (inner ++ [c]))).stack.head? = s.stack.head?)
    ∧ (∀ (ps : List (List Char)) (s : PState), s.stack ≠ [] →
      (List.foldl processPart s ps).stack ≠ []
      ∧ (List.foldl processPart s ps).stack.getLast? = s.stack.getLast?) := by
  refine ⟨?_, ?_, ?_, ?_⟩
  · intro s p hk
    rw [processPart_closing s p hk]
  · intro ps s hb h
    exact balanced_stack hb s h
  · intro t inner c s hpt hin hcc h
    have hb : Balanced (t :: (inner ++ [c])) := by
      have := Balanced.node t inner c [] hpt hin hcc Balanced.nil
      simpa using this
    rw [balanced_stack hb s h]
  · intro ps s h
    exact foldl_stack_invariant ps s h

/-- Default-style stand-in for witnesses: black, size 40, spacing 1. -/
def styA : Style := ⟨"#000000".toList, 40, 1⟩

/-- A second style so the top of the stack differs from the base. -/
def styB : Style := ⟨"#ff0000".toList, 20, 2⟩

/-- Witness for C2: `[/color]` pops one level off a two-level stack, and
the balanced run `[size=10] … [/size]` leaves the top style unchanged. -/
theorem parse_stack_discipline_witness :
    (processPart ⟨[styB, styA], []⟩ ("[/color]".toList)).stack = [styA]
    ∧ (List.foldl processPart ⟨[styA], []⟩
        (("[size=10]".toList) :: ([] ++ [("[/size]".toList)]))).stack.head? = some styA :=
  ⟨parse_stack_discipline.1 ⟨[styB, styA], []⟩ ("[/color]".toList) (by decide),
   parse_stack_discipline.2.2.1 ("[size=10]".toList) [] ("[/size]".toList) ⟨[styA], []⟩
     (by decide) Balanced.nil (by decide) (by decide)⟩

/-- Claim C3 — a tokenizer-recognized opening tag whose attribute value
fails to parse (or which has no `=`) becomes a literal segment carrying
the raw tag text and the current top-of-stack style, and the fold simply
continues with the remaining parts. -/
theorem malformed_tag_literal_segment (p : List Char) (s : PState)
    (rest : List (List Char))
    (htok : matchTag p = some (p, []))
    (hk : partKind p = PartKind.malformed)
    (hs : s.stack ≠ []) :
    processPart s p = ⟨s.stack, s.segs ++ [⟨p, s.stack.headI⟩]⟩
    ∧ List.foldl processPart s (p :: rest)
        = List.foldl processPart ⟨s.stack, s.segs ++ [⟨p, s.stack.headI⟩]⟩ rest := by
  have h1 : processPart s p = ⟨s.stack, s.segs ++ [⟨p, s.stack.headI⟩]⟩ :=
    processPart_emit s p (Or.inr hk)
  exact ⟨h1, by simp only [List.foldl_cons, h1]⟩

/-- Witness for C3: `[size=abc]` on a stack whose top `styB` differs
from the base `styA` yields a literal segment styled `styB`. -/
theorem malformed_tag_literal_segment_witness :
    processPart ⟨[styB, styA], []⟩ ("[size=abc]".toList)
      = ⟨[styB, styA], [⟨"[size=abc]".toList, styB⟩]⟩
    ∧ List.foldl processPart ⟨[styB, styA], []⟩ (("[size=abc]".toList) :: [])
        = List.foldl processPart ⟨[styB, styA], [⟨"[size=abc]".toList, styB⟩]⟩ [] :=
  malformed_tag_literal_segment ("[size=abc]".toList) ⟨[styB, styA], []⟩ []
    (by decide) (by decide) (by decide)

/-- Claim C9 — a malformed opening tag leaves the style stack exactly as
it was: the stack after the tag equals the stack before it, the rest of
the input sees the same stack as if the tag were absent, and the overall
segment output is the literal segment followed by whatever the rest
produces from the unchanged stack. -/
theorem malformed_tag_stack_unchanged (p : List Char)
    (hk : partKind p = PartKind.malformed)
    (s : PState) (rest : List (List Char)) :
    (processPart s p).stack = s.stack
    ∧ (List.foldl processPart s (p :: rest)).stack = (List.foldl processPart s rest).stack
    ∧ (List.foldl processPart s (p :: rest)).segs
        = s.segs ++ [⟨p, s.stack.headI⟩] ++ (List.foldl processPart ⟨s.stack, []⟩ rest).segs := by
  have hem : processPart s p = ⟨s.stack, s.segs ++ [⟨p, s.stack.headI⟩]⟩ :=
    processPart_emit s p (Or.inr hk)
  have hfold : List.foldl processPart s rest
      = List.foldl processPart (⟨s.stack, s.segs⟩ : PState) rest := rfl
  refine ⟨by rw [hem], ?_, ?_⟩
  · simp only [List.foldl_cons, hem]
    rw [foldl_decomp rest s.stack (s.segs ++ [(⟨p, s.stack.headI⟩ : Segment)]), hfold,
        foldl_decomp rest s.stack s.segs]
  · simp only [List.foldl_cons, hem]
    rw [foldl_decomp rest s.stack (s.segs ++ [(⟨p, s.stack.headI⟩ : Segment)])]

/-- Witness for C9: `[spacing=zz]` before a closing tag behaves, for the
stack, as if it were absent, and contributes exactly its literal
segment. -/
theorem malformed_tag_stack_unchanged_witness :
    (processPart ⟨[styB, styA], []⟩ ("[spacing=zz]".toList)).stack = [styB, styA]
    ∧ (List.foldl processPart ⟨[styB, styA], []⟩
        (("[spacing=zz]".toList) :: [("[/size]".toList)])).stack
      = (List.foldl processPart ⟨[styB, styA], []⟩ [("[/size]".toList)]).stack
    ∧ (List.foldl processPart ⟨[styB, styA], []⟩
        (("[spacing=zz]".toList) :: [("[/size]".toList)])).segs
      = [] ++ [⟨"[spacing=zz]".toList, styB⟩]
        ++ (List.foldl processPart ⟨[styB, styA], []⟩ [("[/size]".toList)]).segs :=
  malformed_tag_stack_unchanged ("[spacing=zz]".toList) (by decide)
    ⟨[styB, styA], []⟩ [("[/size]".toList)]

/-- Claim C10 — an opening tag matched by the tokenizer whose attribute
name is not exactly `color`, `size` or `spacing` (e.g. `[sizes=10]`)
pushes an unchanged copy of the current top style and emits no segment:
it silently consumes one nesting level. -/
theorem unknown_attribute_pushes_copy (p : List Char) (s : PState)
    (tv : List Char × List Char)
    (htok : matchTag p = some (p, []))
    (htag : isTag p = true)
    (hne : p.isEmpty = false)
    (hnc : ¬(((p.drop 1).dropLast).head? == some '/') = true)
    (hsp : splitEq ((p.drop 1).dropLast) = some tv)
    (h1 : tv.1 ≠ "color".toList) (h2 : tv.1 ≠ "size".toList)
    (h3 : tv.1 ≠ "spacing".toList) :
    processPart s p = ⟨s.stack.headI :: s.stack, s.segs⟩ := by
  unfold processPart
  rw [if_neg (by simp [hne]), if_pos htag, if_neg hnc]
  simp only [hsp]
  unfold openAction
  rw [if_neg h1, if_neg h2, if_neg h3]

/-- Witness for C10: `[sizes=10]` pushes a copy of the top style `styB`
and emits nothing. -/
theorem unknown_attribute_pushes_copy_witness :
    processPart ⟨[styB, styA], []⟩ ("[sizes=10]".toList) = ⟨[styB, styB, styA], []⟩ :=
  unknown_attribute_pushes_copy ("[sizes=10]".toList) ⟨[styB, styA], []⟩
    ("sizes".toList, "10".toList) (by decide) (by decide) (by decide) (by decide)
    (by decide) (by decide) (by decide) (by decide)

/-- Claim C6 (amended) — for nonempty input in which the tokenizer finds
no tag and which is not itself bracket-delimited (such input is treated
as a tag by the part loop), parsing yields exactly one segment with the
default style and the input as text. -/
theorem plain_text_single_segment (t : List Char) (d : Style)
    (hne : t ≠ [])
    (htok : tokenize t = [t])
    (htag : isTag t = false) :
    parseRichText t d = [⟨t, d⟩] := by
  unfold parseRichText
  rw [htok]
  simp only [List.foldl_cons, List.foldl_nil]
  unfold processPart
  rw [if_neg (by simp [List.isEmpty_iff, hne]), if_neg (by simp [htag])]
  rfl

/-- Witness for C6: a plain word parses to a single default-styled
segment. -/
theorem plain_text_single_segment_witness :
    parseRichText ("hello".toList) styA = [⟨"hello".toList, styA⟩] :=
  plain_text_single_segment ("hello".toList) styA (by decide) (by decide) (by decide)

/-- Counterexample to claim C6 as stated: the empty string contains no
markup tags, yet parsing yields no segment at all rather than exactly
one segment whose text equals the input. -/
theorem plain_text_single_segment_cex :
    parseRichText [] styA = [] ∧ parseRichText [] styA ≠ [⟨[], styA⟩] := by
  constructor
  · rfl
  · intro hcontra
    have h1 : parseRichText [] styA = [] := rfl
    rw [h1] at hcontra
    simp at hcontra

end FreeCmd
